import Mathlib

/-!
# SurfStore: consistent hash ring, block store and local index

A shallow embedding of `pkg/surfstore/ConsistentHashRing.go`,
`pkg/surfstore/BlockStore.go` and the metadata-file part of
`pkg/surfstore/SurfstoreHelper.go`.

Conventions of the embedding.

* A Go `string` is a Lean `String`.  Go compares strings byte by byte; on
  well-formed UTF-8 that order is the code-point order Lean uses.
* A Go `[]byte` is a `List Nat` (every element meant to be below 256).
* A Go `map[string]V` is a `GoMap V`: a list of bindings in which `store`
  keeps at most one binding per key.  The order of the list stands for the
  order in which `range` happens to visit the map.
* `crypto/sha256` lies outside the repository: the digest is a parameter
  `sha256 : List Nat → List Nat` of every definition that hashes.
* `os.Stat`, `filepath.Abs` and the driver go-sqlite3 decide which file a
  name reaches; they too lie outside the repository and are the parameter
  `names : FileNames` of the definitions that touch the disk.
* Methods with effects return the state after the call next to their result.
* Logging and the failures of the operating system and of SQLite
  (`log.Fatalf`) are left out.
-/

namespace Surfstore

/-! ## Go maps -/

/-- A Go `map[string]V`. -/
structure GoMap (V : Type) where
  entries : List (String × V)
deriving DecidableEq, Repr

namespace GoMap

/-- The value of `make(map[string]V)`. -/
def empty {V : Type} : GoMap V := ⟨[]⟩

/-- Search of a key among the bindings. -/
def lookupIn {V : Type} : List (String × V) → String → Option V
  | [], _ => none
  | (k, v) :: rest, key => if k = key then some v else lookupIn rest key

/-- The comma-ok read `v, ok := m[key]`: `none` when `ok` is false. -/
def lookup {V : Type} (m : GoMap V) (key : String) : Option V :=
  lookupIn m.entries key

/-- The assignment `m[key] = v`. -/
def store {V : Type} (m : GoMap V) (key : String) (v : V) : GoMap V :=
  ⟨(key, v) :: m.entries.filter (fun e => !decide (e.1 = key))⟩

/-- Removal of a key. -/
def remove {V : Type} (m : GoMap V) (key : String) : GoMap V :=
  ⟨m.entries.filter (fun e => !decide (e.1 = key))⟩

/-- Whether `key` is a key of the map. -/
def has {V : Type} (m : GoMap V) (key : String) : Bool :=
  (m.lookup key).isSome

/-- The keys, in the order of the bindings. -/
def keys {V : Type} (m : GoMap V) : List String :=
  m.entries.map Prod.fst

/-- The plain read `m[key]` of a `map[string]string`: the zero value `""`
for a key that is absent. -/
def index (m : GoMap String) (key : String) : String :=
  (m.lookup key).getD ""

end GoMap

/-! ## Hashing (`SurfstoreHelper.go`, `ConsistentHashRing.go`) -/

/-- The conversion `[]byte(s)`: the UTF-8 bytes of a string. -/
def bytesOf (s : String) : List Nat :=
  s.toUTF8.data.toList.map UInt8.toNat

/-- One digit of `hex.EncodeToString` (table `0123456789abcdef`). -/
def hexDigit (n : Nat) : Char :=
  "0123456789abcdef".toList.getD n '0'

/-- The library function `hex.EncodeToString`: two lower-case digits a byte. -/
def hexEncodeToString (src : List Nat) : String :=
  String.mk (src.flatMap fun b => [hexDigit (b / 16 % 16), hexDigit (b % 16)])

/-- `GetBlockHashBytes`: the digest of the block data. -/
def GetBlockHashBytes (sha256 : List Nat → List Nat) (blockData : List Nat) : List Nat :=
  sha256 blockData

/-- `GetBlockHashString`: the digest in hexadecimal. -/
def GetBlockHashString (sha256 : List Nat → List Nat) (blockData : List Nat) : String :=
  hexEncodeToString (GetBlockHashBytes sha256 blockData)

/-- `ConsistentHashRing.Hash`: the hexadecimal digest of the address. -/
def Hash (sha256 : List Nat → List Nat) (addr : String) : String :=
  hexEncodeToString (sha256 (bytesOf addr))

/-- The values SHA-256 takes on the bytes of the four addresses `s1`, `s2`,
`s3` and `s4`, for evaluation on concrete rings; the empty digest elsewhere. -/
def sha256Sample (data : List Nat) : List Nat :=
  if data = [115, 49] then
    [232, 188, 22, 60, 130, 238, 225, 135, 51, 40, 140, 125, 74, 198, 54, 219,
     58, 109, 235, 1, 62, 242, 211, 123, 104, 50, 43, 226, 14, 220, 69, 204]
  else if data = [115, 50] then
    [173, 50, 136, 70, 170, 24, 179, 42, 51, 88, 22, 55, 69, 17, 202, 193,
     6, 60, 112, 75, 140, 87, 153, 158, 81, 218, 159, 144, 130, 144, 167, 164]
  else if data = [115, 51] then
    [65, 36, 43, 159, 174, 86, 250, 212, 230, 231, 125, 254, 51, 203, 24, 209,
     195, 252, 88, 63, 152, 140, 242, 94, 249, 242, 217, 190, 13, 68, 11, 187]
  else if data = [115, 52] then
    [91, 132, 1, 87, 231, 232, 106, 239, 59, 63, 208, 252, 36, 243, 173, 211,
     77, 62, 127, 33, 3, 112, 212, 41, 71, 94, 209, 188, 211, 231, 252, 162]
  else []

/-! ## The consistent hash ring (`ConsistentHashRing.go`) -/

/-- The struct `ConsistentHashRing`. -/
structure ConsistentHashRing where
  ServerMap : GoMap String
  SortedKeys : List String
deriving DecidableEq, Repr

/-- Run-time panics of Go that the code can raise. -/
inductive GoPanic where
  | indexOutOfRange (index length : Nat)
deriving DecidableEq, Repr

/-- The library function `sort.Strings`: the ascending rearrangement. -/
def sortStrings (keys : List String) : List String :=
  keys.insertionSort (· ≤ ·)

/-- The `for _, key := range c.SortedKeys` loop of `GetResponsibleServer`:
the server of the first key that is `>= blockId`, or `none` when the loop
runs to its end. -/
def GetResponsibleServer.scan (ServerMap : GoMap String) (blockId : String) :
    List String → Option String
  | [] => none
  | key :: rest =>
    if key ≥ blockId then some (ServerMap.index key)
    else GetResponsibleServer.scan ServerMap blockId rest

/-- `GetResponsibleServer`.  After the loop the code reads
`c.SortedKeys[0]`, which panics on an empty slice.  The receiver is only
read; it is returned as it was. -/
def GetResponsibleServer (c : ConsistentHashRing) (blockId : String) :
    ConsistentHashRing × Except GoPanic String :=
  match GetResponsibleServer.scan c.ServerMap blockId c.SortedKeys with
  | some addr => (c, .ok addr)
  | none =>
    match c.SortedKeys with
    | [] => (c, .error (.indexOutOfRange 0 0))
    | first :: _ => (c, .ok (c.ServerMap.index first))

/-- One round of the loop of `NewConsistentHashRing`. -/
def NewConsistentHashRing.step (sha256 : List Nat → List Nat)
    (hashRing : ConsistentHashRing) (addr : String) : ConsistentHashRing :=
  let hashString := Hash sha256 addr
  { ServerMap := hashRing.ServerMap.store hashString addr
    SortedKeys := hashRing.SortedKeys ++ [hashString] }

/-- `NewConsistentHashRing`. -/
def NewConsistentHashRing (sha256 : List Nat → List Nat) (serverAddrs : List String) :
    ConsistentHashRing :=
  let hashRing := serverAddrs.foldl (NewConsistentHashRing.step sha256)
    { ServerMap := GoMap.empty, SortedKeys := [] }
  { hashRing with SortedKeys := sortStrings hashRing.SortedKeys }

/-- `AddServer`, as seen by the caller.  The method has a value receiver
(`func (c ConsistentHashRing) AddServer`), so it works on a copy `c` of the
caller's struct:

* `c.ServerMap[hashString] = addr` writes through the map, which the copy
  shares with the caller;
* `c.SortedKeys = append(...)` assigns the longer slice to the copy only: the
  caller's slice keeps its length;
* `sort.Strings(c.SortedKeys)` sorts the copy's slice in place.  When the
  caller's slice had spare capacity (`spare = cap - len > 0`) `append` wrote
  into the shared backing array, and the caller's slice then shows the first
  `len` elements of the sorted array; with no spare capacity `append`
  allocated a fresh array and the caller's slice is untouched. -/
def AddServer (sha256 : List Nat → List Nat) (spare : Nat) (c : ConsistentHashRing)
    (addr : String) : ConsistentHashRing :=
  let hashString := Hash sha256 addr
  let ServerMap := c.ServerMap.store hashString addr
  let sortedCopy := sortStrings (c.SortedKeys ++ [hashString])
  { ServerMap := ServerMap
    SortedKeys := if spare = 0 then c.SortedKeys else sortedCopy.take c.SortedKeys.length }

/-- Specification of resolution: the member hash `r` owns the block hash `k`
among `keys` when it is the least key that is `≥ k`, or, no key being `≥ k`,
the least key of all. -/
def Owns (keys : List String) (k r : String) : Prop :=
  r ∈ keys ∧
    ((k ≤ r ∧ ∀ x ∈ keys, k ≤ x → r ≤ x) ∨ ((∀ x ∈ keys, x < k) ∧ ∀ x ∈ keys, r ≤ x))

/-- The key the loop of `GetResponsibleServer` stops at, or the first key. -/
def responsibleKey (keys : List String) (blockId : String) : Option String :=
  match keys.find? (fun key => decide (blockId ≤ key)) with
  | some key => some key
  | none => keys.head?

/-! ## The block store (`BlockStore.go`) -/

/-- The message `Block`. -/
structure Block where
  BlockData : List Nat
  BlockSize : Int
deriving DecidableEq, Repr

/-- The message `Success`. -/
structure Success where
  Flag : Bool
deriving DecidableEq, Repr

/-- The struct `BlockStore`. -/
structure BlockStore where
  BlockMap : GoMap Block
deriving DecidableEq, Repr

/-- `NewBlockStore`. -/
def NewBlockStore : BlockStore :=
  { BlockMap := GoMap.empty }

/-- `GetBlock`.  The error is the message of `fmt.Errorf`. -/
def GetBlock (bs : BlockStore) (blockHash : String) : BlockStore × Except String Block :=
  match bs.BlockMap.lookup blockHash with
  | none => (bs, .error ("Block with hash " ++ blockHash ++ " not found"))
  | some block => (bs, .ok { BlockData := block.BlockData, BlockSize := block.BlockSize })

/-- `PutBlock`.  The error result is always `nil` and is left out. -/
def PutBlock (sha256 : List Nat → List Nat) (bs : BlockStore) (block : Block) :
    BlockStore × Success :=
  let hash := GetBlockHashString sha256 block.BlockData
  ({ BlockMap := bs.BlockMap.store hash block }, { Flag := true })

/-- One round of the loop of `MissingBlocks`. -/
def MissingBlocks.step (bs : BlockStore) (missingHashes : List String) (hash : String) :
    List String :=
  if bs.BlockMap.has hash then missingHashes else missingHashes ++ [hash]

/-- `MissingBlocks`.  The error result is always `nil` and is left out. -/
def MissingBlocks (bs : BlockStore) (blockHashesIn : List String) :
    BlockStore × List String :=
  (bs, blockHashesIn.foldl (MissingBlocks.step bs) [])

/-- A run of `PutBlock` calls, one for each block of the list in turn. -/
def putBlocks (sha256 : List Nat → List Nat) (bs : BlockStore) (blocks : List Block) :
    BlockStore :=
  blocks.foldl (fun s b => (PutBlock sha256 s b).1) bs

/-! ## The local index file (`SurfstoreHelper.go`) -/

/-- The message `FileMetaData`. -/
structure FileMetaData where
  Filename : String
  Version : Int
  BlockHashList : List String
deriving DecidableEq, Repr

/-- One row of the table `indexes`
(`fileName TEXT, version INT, hashIndex INT, hashValue TEXT`). -/
structure IndexRow where
  fileName : String
  version : Int
  hashIndex : Nat
  hashValue : String
deriving DecidableEq, Repr

/-- The database files on disk: to each path the rows of its table `indexes`,
in the order of their insertion. -/
abbrev Disk := GoMap (List IndexRow)

/-- `ConcatPath`. -/
def ConcatPath (baseDir fileDir : String) : String :=
  baseDir ++ "/" ++ fileDir

/-- Modelled from the spec: the constant `DEFAULT_META_FILENAME` is declared
outside the files at hand; the index file is called `index.db`. -/
def DEFAULT_META_FILENAME : String := "index.db"

/-- The inner loop of `WriteMetaFile`: one `insert into indexes` for each
block hash of a file, `i` being the index of the next hash. -/
def WriteMetaFile.insertHashes (fileName : String) (version : Int) :
    Nat → List String → List IndexRow → List IndexRow
  | _, [], table => table
  | i, blockHash :: rest, table =>
    WriteMetaFile.insertHashes fileName version (i + 1) rest
      (table ++ [{ fileName := fileName, version := version, hashIndex := i,
                   hashValue := blockHash }])

/-- One round of the outer loop of `WriteMetaFile`. -/
def WriteMetaFile.insertFile (table : List IndexRow) (filemeta : FileMetaData) :
    List IndexRow :=
  let fileName := filemeta.Filename
  let version := filemeta.Version
  WriteMetaFile.insertHashes fileName version 0 filemeta.BlockHashList table

/-- Which file a name reaches.  The keys of a `Disk` are files; the three
functions are the work of the operating system and of the libraries. -/
structure FileNames where
  /-- The file `os.Stat` and `os.Remove` reach under a path. -/
  osFile : String → String
  /-- The file go-sqlite3 opens for a data source name. -/
  sqliteFile : String → String
  /-- The library function `filepath.Abs`. -/
  abs : String → String

/-- The rule of go-sqlite3 for a data source name that is no `file:` URI: a
`?` that is not its first character starts the connection parameters, and the
name of the file is what stands before it. -/
def dataSourcePath (dsn : String) : String :=
  let pos := dsn.toList.indexOf '?'
  if 1 ≤ pos ∧ pos < dsn.toList.length ∧ ¬ "file:".toList.isPrefixOf dsn.toList = true then
    String.mk (dsn.toList.take pos)
  else dsn

/-- File names on a disk where every path is absolute and clean and reaches
the file of its own name, opened through go-sqlite3. -/
def plainNames : FileNames :=
  { osFile := id, sqliteFile := dataSourcePath, abs := id }

/-- `WriteMetaFile`: the file found under the path of `index.db` is removed;
`sql.Open` and `create table if not exists` then work on the file the driver
opens for that path as data source name, keeping the rows it may hold, and the
rows of the map are inserted, the map being visited in the order of its
bindings.  The error result is always `nil` and is left out. -/
def WriteMetaFile (names : FileNames) (fileMetas : GoMap FileMetaData) (baseDir : String)
    (disk : Disk) : Disk :=
  let outputMetaPath := ConcatPath baseDir DEFAULT_META_FILENAME
  let disk :=
    if disk.has (names.osFile outputMetaPath) then disk.remove (names.osFile outputMetaPath)
    else disk
  let db := names.sqliteFile outputMetaPath
  let table := (disk.lookup db).getD []
  let table := fileMetas.entries.foldl (fun t e => WriteMetaFile.insertFile t e.2) table
  disk.store db table

/-- The query `select distinct fileName from indexes`.  SQL leaves the order
of the answer open; the map built from it does not depend on that order. -/
def selectDistinctFileName (table : List IndexRow) : List String :=
  (table.map (·.fileName)).dedup

/-- The query `select version, hashIndex, hashValue from indexes where
fileName = ?`, answered in the order of insertion. -/
def selectTuplesByFileName (table : List IndexRow) (fileName : String) : List IndexRow :=
  table.filter (fun r => decide (r.fileName = fileName))

/-- The inner loop of `LoadMetaFromMetaFile` over the rows of one file:
the hashes collected so far and the version last read. -/
def LoadMetaFromMetaFile.scanRows (rows : List IndexRow) : List String × Int :=
  rows.foldl (fun acc r => (acc.1 ++ [r.hashValue], r.version)) ([], 0)

/-- One round of the outer loop of `LoadMetaFromMetaFile`. -/
def LoadMetaFromMetaFile.loadFile (table : List IndexRow) (fileMetaMap : GoMap FileMetaData)
    (fileName : String) : GoMap FileMetaData :=
  let scanned := LoadMetaFromMetaFile.scanRows (selectTuplesByFileName table fileName)
  fileMetaMap.store fileName
    { Filename := fileName, Version := scanned.2, BlockHashList := scanned.1 }

/-- `LoadMetaFromMetaFile`: the empty map when `os.Stat` finds no file under
the absolute path of `index.db` (a directory of that name is not modelled);
otherwise the rows of the file the driver opens for that path as data source
name.  When that file is not there SQLite makes an empty database, shown here
as the empty table (the query on it ends in `log.Fatalf`).  The error result
is always `nil` and is left out. -/
def LoadMetaFromMetaFile (names : FileNames) (baseDir : String) (disk : Disk) :
    GoMap FileMetaData :=
  let metaFilePath := names.abs (ConcatPath baseDir DEFAULT_META_FILENAME)
  if disk.has (names.osFile metaFilePath) then
    let table := (disk.lookup (names.sqliteFile metaFilePath)).getD []
    (selectDistinctFileName table).foldl (LoadMetaFromMetaFile.loadFile table) GoMap.empty
  else GoMap.empty

/-! ## Facts about Go maps -/

theorem GoMap.lookupIn_filter_ne {V : Type} (key other : String) (h : other ≠ key) :
    ∀ l : List (String × V),
      GoMap.lookupIn (l.filter (fun e => !decide (e.1 = key))) other = GoMap.lookupIn l other
  | [] => rfl
  | (k, v) :: rest => by
    have ih := GoMap.lookupIn_filter_ne key other h rest
    by_cases hk : k = key
    · have hne : ¬ key = other := fun e => h e.symm
      simp [List.filter, hk, GoMap.lookupIn, ih, hne]
    · by_cases ho : k = other
      · subst ho
        simp [List.filter, hk, GoMap.lookupIn]
      · simp [List.filter, hk, GoMap.lookupIn, ho, ih]

theorem GoMap.lookupIn_filter_self {V : Type} (key : String) :
    ∀ l : List (String × V),
      GoMap.lookupIn (l.filter (fun e => !decide (e.1 = key))) key = none
  | [] => rfl
  | (k, v) :: rest => by
    have ih := GoMap.lookupIn_filter_self key rest
    by_cases hk : k = key
    · simp [List.filter, hk, ih]
    · simp [List.filter, hk, GoMap.lookupIn, ih]

theorem GoMap.lookup_store_self {V : Type} (m : GoMap V) (key : String) (v : V) :
    (m.store key v).lookup key = some v := by
  simp [GoMap.store, GoMap.lookup, GoMap.lookupIn]

theorem GoMap.lookup_store_ne {V : Type} (m : GoMap V) (key other : String) (v : V)
    (h : other ≠ key) : (m.store key v).lookup other = m.lookup other := by
  have hne : ¬ key = other := fun e => h e.symm
  simp [GoMap.store, GoMap.lookup, GoMap.lookupIn, hne, GoMap.lookupIn_filter_ne key other h]

theorem GoMap.lookup_remove_self {V : Type} (m : GoMap V) (key : String) :
    (m.remove key).lookup key = none := by
  simp [GoMap.remove, GoMap.lookup, GoMap.lookupIn_filter_self]

theorem GoMap.lookup_remove_ne {V : Type} (m : GoMap V) (key other : String)
    (h : other ≠ key) : (m.remove key).lookup other = m.lookup other := by
  simp [GoMap.remove, GoMap.lookup, GoMap.lookupIn_filter_ne key other h]

/-! ## Facts about the ring -/

theorem Owns.unique {keys : List String} {k r s : String}
    (hr : Owns keys k r) (hs : Owns keys k s) : r = s := by
  obtain ⟨hrm, hr⟩ := hr
  obtain ⟨hsm, hs⟩ := hs
  rcases hr with ⟨hkr, hrmin⟩ | ⟨hrall, hrmin⟩
  · rcases hs with ⟨hks, hsmin⟩ | ⟨hsall, _⟩
    · exact le_antisymm (hrmin s hsm hks) (hsmin r hrm hkr)
    · exact absurd (hsall r hrm) (not_lt.mpr hkr)
  · rcases hs with ⟨hks, _⟩ | ⟨_, hsmin⟩
    · exact absurd (hrall s hsm) (not_lt.mpr hks)
    · exact le_antisymm (hrmin s hsm) (hsmin r hrm)

theorem Owns.mono {keys sub : List String} {k r : String}
    (hsub : ∀ x ∈ sub, x ∈ keys) (hr : r ∈ sub) (h : Owns keys k r) : Owns sub k r := by
  obtain ⟨_, h⟩ := h
  refine ⟨hr, ?_⟩
  rcases h with ⟨hkr, hmin⟩ | ⟨hall, hmin⟩
  · exact Or.inl ⟨hkr, fun x hx hkx => hmin x (hsub x hx) hkx⟩
  · exact Or.inr ⟨fun x hx => hall x (hsub x hx), fun x hx => hmin x (hsub x hx)⟩

theorem scan_eq_find (m : GoMap String) (k : String) :
    ∀ keys : List String, GetResponsibleServer.scan m k keys
      = (keys.find? (fun key => decide (k ≤ key))).map m.index
  | [] => rfl
  | key :: rest => by
    have ih := scan_eq_find m k rest
    by_cases h : k ≤ key
    · simp [GetResponsibleServer.scan, List.find?, h]
    · simp [GetResponsibleServer.scan, List.find?, h, ih]

theorem GetResponsibleServer_eq (c : ConsistentHashRing) (k : String) :
    GetResponsibleServer c k =
      (c, match responsibleKey c.SortedKeys k with
          | some key => .ok (c.ServerMap.index key)
          | none => .error (.indexOutOfRange 0 0)) := by
  unfold GetResponsibleServer responsibleKey
  rw [scan_eq_find]
  cases hf : c.SortedKeys.find? (fun key => decide (k ≤ key)) with
  | some key => simp
  | none =>
    cases hk : c.SortedKeys with
    | nil => simp
    | cons a l => simp

theorem find_ge_of_sorted (k : String) :
    ∀ keys : List String, keys.Sorted (· ≤ ·) → ∀ r,
      keys.find? (fun key => decide (k ≤ key)) = some r →
      r ∈ keys ∧ k ≤ r ∧ ∀ x ∈ keys, k ≤ x → r ≤ x
  | [], _, r, h => by simp at h
  | y :: ys, hs, r, h => by
    have hs' := List.sorted_cons.mp hs
    by_cases hy : k ≤ y
    · rw [List.find?_cons_of_pos _ (by simpa using hy)] at h
      cases h
      refine ⟨List.mem_cons_self _ _, hy, ?_⟩
      intro x hx _
      rcases List.mem_cons.mp hx with rfl | hx
      · exact le_rfl
      · exact hs'.1 x hx
    · rw [List.find?_cons_of_neg _ (by simpa using hy)] at h
      obtain ⟨hm, hkr, hmin⟩ := find_ge_of_sorted k ys hs'.2 r h
      refine ⟨List.mem_cons_of_mem _ hm, hkr, ?_⟩
      intro x hx hkx
      rcases List.mem_cons.mp hx with rfl | hx
      · exact absurd hkx hy
      · exact hmin x hx hkx

theorem responsibleKey_owns (keys : List String) (hs : keys.Sorted (· ≤ ·)) (hne : keys ≠ [])
    (k : String) : ∃ r, responsibleKey keys k = some r ∧ Owns keys k r := by
  unfold responsibleKey
  cases hf : keys.find? (fun key => decide (k ≤ key)) with
  | some r =>
    obtain ⟨hm, hkr, hmin⟩ := find_ge_of_sorted k keys hs r hf
    exact ⟨r, rfl, hm, Or.inl ⟨hkr, hmin⟩⟩
  | none =>
    cases keys with
    | nil => exact absurd rfl hne
    | cons y ys =>
      refine ⟨y, rfl, List.mem_cons_self _ _, Or.inr ⟨?_, ?_⟩⟩
      · intro x hx
        have := List.find?_eq_none.mp hf x hx
        simpa using this
      · intro x hx
        rcases List.mem_cons.mp hx with rfl | hx
        · exact le_rfl
        · exact (List.sorted_cons.mp hs).1 x hx

theorem sortStrings_sorted (keys : List String) : (sortStrings keys).Sorted (· ≤ ·) :=
  List.sorted_insertionSort _ keys

theorem mem_sortStrings {keys : List String} {x : String} : x ∈ sortStrings keys ↔ x ∈ keys :=
  (List.perm_insertionSort _ keys).mem_iff

theorem foldl_step_keys (sha256 : List Nat → List Nat) :
    ∀ (addrs : List String) (r : ConsistentHashRing),
      (addrs.foldl (NewConsistentHashRing.step sha256) r).SortedKeys
        = r.SortedKeys ++ addrs.map (Hash sha256)
  | [], r => by simp
  | a :: rest, r => by
    simp [List.foldl, foldl_step_keys sha256 rest, NewConsistentHashRing.step]

theorem foldl_step_lookup_absent (sha256 : List Nat → List Nat) (h : String) :
    ∀ (addrs : List String) (r : ConsistentHashRing), h ∉ addrs.map (Hash sha256) →
      (addrs.foldl (NewConsistentHashRing.step sha256) r).ServerMap.lookup h
        = r.ServerMap.lookup h
  | [], r, _ => rfl
  | a :: rest, r, hn => by
    have hn' : h ≠ Hash sha256 a ∧ h ∉ rest.map (Hash sha256) := by
      simpa [not_or] using hn
    rw [List.foldl, foldl_step_lookup_absent sha256 h rest _ hn'.2]
    simp [NewConsistentHashRing.step, GoMap.lookup_store_ne _ _ _ _ hn'.1]

theorem foldl_step_lookup (sha256 : List Nat → List Nat) (a : String) :
    ∀ (addrs : List String) (r : ConsistentHashRing), a ∈ addrs →
      (∀ x ∈ addrs, ∀ y ∈ addrs, Hash sha256 x = Hash sha256 y → x = y) →
      (addrs.foldl (NewConsistentHashRing.step sha256) r).ServerMap.lookup (Hash sha256 a)
        = some a
  | [], _, hm, _ => by simp at hm
  | b :: rest, r, hm, hinj => by
    rw [List.foldl]
    by_cases hr : a ∈ rest
    · exact foldl_step_lookup sha256 a rest _ hr
        (fun x hx y hy => hinj x (List.mem_cons_of_mem _ hx) y (List.mem_cons_of_mem _ hy))
    · have hab : a = b := by
        rcases List.mem_cons.mp hm with h | h
        · exact h
        · exact absurd h hr
      subst hab
      have hnot : Hash sha256 a ∉ rest.map (Hash sha256) := by
        intro hmem
        obtain ⟨y, hy, hy'⟩ := List.mem_map.mp hmem
        have := hinj y (List.mem_cons_of_mem _ hy) a (List.mem_cons_self _ _) hy'
        exact hr (this ▸ hy)
      rw [foldl_step_lookup_absent sha256 _ rest _ hnot]
      simp [NewConsistentHashRing.step, GoMap.lookup_store_self]

theorem NewConsistentHashRing_keys (sha256 : List Nat → List Nat) (addrs : List String) :
    (NewConsistentHashRing sha256 addrs).SortedKeys = sortStrings (addrs.map (Hash sha256)) := by
  simp [NewConsistentHashRing, foldl_step_keys]

theorem NewConsistentHashRing_index (sha256 : List Nat → List Nat) (addrs : List String)
    (hinj : ∀ x ∈ addrs, ∀ y ∈ addrs, Hash sha256 x = Hash sha256 y → x = y)
    (a : String) (ha : a ∈ addrs) :
    (NewConsistentHashRing sha256 addrs).ServerMap.index (Hash sha256 a) = a := by
  simp [NewConsistentHashRing, GoMap.index, foldl_step_lookup sha256 a addrs _ ha hinj]

/-- On a ring built from a non-empty list on which the hash has no collision,
resolution returns the member whose hash owns the block hash. -/
theorem resolve_owner (sha256 : List Nat → List Nat) (addrs : List String) (hne : addrs ≠ [])
    (hinj : ∀ x ∈ addrs, ∀ y ∈ addrs, Hash sha256 x = Hash sha256 y → x = y) (k : String) :
    ∃ a ∈ addrs, (GetResponsibleServer (NewConsistentHashRing sha256 addrs) k).2 = .ok a ∧
      Owns (addrs.map (Hash sha256)) k (Hash sha256 a) := by
  have hkeys := NewConsistentHashRing_keys sha256 addrs
  have hne' : sortStrings (addrs.map (Hash sha256)) ≠ [] := by
    intro h
    cases addrs with
    | nil => exact hne rfl
    | cons a l =>
      have : Hash sha256 a ∈ sortStrings ((a :: l).map (Hash sha256)) :=
        mem_sortStrings.mpr (by simp)
      rw [h] at this
      simp at this
  obtain ⟨r, hr, hown⟩ := responsibleKey_owns _ (sortStrings_sorted _) hne' k
  have hown' : Owns (addrs.map (Hash sha256)) k r := by
    obtain ⟨hm, h⟩ := hown
    refine ⟨mem_sortStrings.mp hm, ?_⟩
    rcases h with ⟨h1, h2⟩ | ⟨h1, h2⟩
    · exact Or.inl ⟨h1, fun x hx => h2 x (mem_sortStrings.mpr hx)⟩
    · exact Or.inr ⟨fun x hx => h1 x (mem_sortStrings.mpr hx),
        fun x hx => h2 x (mem_sortStrings.mpr hx)⟩
  obtain ⟨a, ha, rfl⟩ := List.mem_map.mp hown'.1
  refine ⟨a, ha, ?_, hown'⟩
  rw [GetResponsibleServer_eq, hkeys, hr]
  simp [NewConsistentHashRing_index sha256 addrs hinj a ha]
/-! ## The sample digests -/

theorem Hash_sample_s1 : Hash sha256Sample "s1"
    = "e8bc163c82eee18733288c7d4ac636db3a6deb013ef2d37b68322be20edc45cc" := by decide

theorem Hash_sample_s2 : Hash sha256Sample "s2"
    = "ad328846aa18b32a335816374511cac1063c704b8c57999e51da9f908290a7a4" := by decide

theorem Hash_sample_s3 : Hash sha256Sample "s3"
    = "41242b9fae56fad4e6e77dfe33cb18d1c3fc583f988cf25ef9f2d9be0d440bbb" := by decide

theorem Hash_sample_s4 : Hash sha256Sample "s4"
    = "5b840157e7e86aef3b3fd0fc24f3add34d3e7f210370d429475ed1bcd3e7fca2" := by decide

theorem Hash_sample_s3_lt_s4 : Hash sha256Sample "s3" < Hash sha256Sample "s4" := by
  rw [Hash_sample_s3, Hash_sample_s4, String.lt_iff_toList_lt]
  decide

theorem Hash_sample_s4_lt_s2 : Hash sha256Sample "s4" < Hash sha256Sample "s2" := by
  rw [Hash_sample_s4, Hash_sample_s2, String.lt_iff_toList_lt]
  decide

theorem Hash_sample_s2_lt_s1 : Hash sha256Sample "s2" < Hash sha256Sample "s1" := by
  rw [Hash_sample_s2, Hash_sample_s1, String.lt_iff_toList_lt]
  decide

theorem data_le_of_le {a b : String} (h : a ≤ b) : a.data ≤ b.data :=
  String.le_iff_toList_le.mp h

theorem data_not_le_of_lt {a b : String} (h : b < a) : ¬ a.data ≤ b.data :=
  fun hle => not_le.mpr h (String.le_iff_toList_le.mpr hle)

/-! ## The ring: resolution -/

/-- C1: on a ring built by `NewConsistentHashRing` from a non-empty list of
addresses with pairwise distinct hashes, `GetResponsibleServer k` returns a
member `a` whose hash is the least member hash `≥ k`, or, when no member hash
is `≥ k`, the least member hash of all; a `k` equal to a member hash resolves
to that member. -/
theorem GetResponsibleServer_least_hash_above (sha256 : List Nat → List Nat)
    (serverAddrs : List String) (hne : serverAddrs ≠ [])
    (hdistinct : (serverAddrs.map (Hash sha256)).Nodup) (k : String) :
    ∃ a ∈ serverAddrs,
      (GetResponsibleServer (NewConsistentHashRing sha256 serverAddrs) k).2 = .ok a ∧
      ((k ≤ Hash sha256 a ∧
          ∀ b ∈ serverAddrs, k ≤ Hash sha256 b → Hash sha256 a ≤ Hash sha256 b) ∨
        ((∀ b ∈ serverAddrs, Hash sha256 b < k) ∧
          ∀ b ∈ serverAddrs, Hash sha256 a ≤ Hash sha256 b)) ∧
      (∀ m ∈ serverAddrs, Hash sha256 m = k → a = m) := by
  have hinj : ∀ x ∈ serverAddrs, ∀ y ∈ serverAddrs, Hash sha256 x = Hash sha256 y → x = y :=
    fun x hx y hy h => List.inj_on_of_nodup_map hdistinct hx hy h
  obtain ⟨a, ha, hres, -, hown⟩ := resolve_owner sha256 serverAddrs hne hinj k
  have hcases : (k ≤ Hash sha256 a ∧
          ∀ b ∈ serverAddrs, k ≤ Hash sha256 b → Hash sha256 a ≤ Hash sha256 b) ∨
        ((∀ b ∈ serverAddrs, Hash sha256 b < k) ∧
          ∀ b ∈ serverAddrs, Hash sha256 a ≤ Hash sha256 b) := by
    rcases hown with ⟨h1, h2⟩ | ⟨h1, h2⟩
    · exact Or.inl ⟨h1, fun b hb => h2 _ (List.mem_map_of_mem _ hb)⟩
    · exact Or.inr ⟨fun b hb => h1 _ (List.mem_map_of_mem _ hb),
        fun b hb => h2 _ (List.mem_map_of_mem _ hb)⟩
  refine ⟨a, ha, hres, hcases, ?_⟩
  intro m hm hmk
  rcases hcases with ⟨h1, h2⟩ | ⟨h1, _⟩
  · have hle : Hash sha256 a ≤ Hash sha256 m := h2 m hm (le_of_eq hmk.symm)
    exact hinj a ha m hm (le_antisymm hle (hmk ▸ h1))
  · exact absurd (h1 m hm) (by rw [hmk]; exact lt_irrefl k)

theorem GetResponsibleServer_least_hash_above_witness :
    ["s1", "s2"] ≠ [] ∧ (["s1", "s2"].map (Hash id)).Nodup ∧
    ∃ a ∈ ["s1", "s2"],
      (GetResponsibleServer (NewConsistentHashRing id ["s1", "s2"]) "7332").2 = .ok a ∧
      (("7332" ≤ Hash id a ∧
          ∀ b ∈ ["s1", "s2"], "7332" ≤ Hash id b → Hash id a ≤ Hash id b) ∨
        ((∀ b ∈ ["s1", "s2"], Hash id b < "7332") ∧
          ∀ b ∈ ["s1", "s2"], Hash id a ≤ Hash id b)) ∧
      (∀ m ∈ ["s1", "s2"], Hash id m = "7332" → a = m) :=
  ⟨by decide, by decide,
    GetResponsibleServer_least_hash_above id ["s1", "s2"] (by decide) (by decide) "7332"⟩

/-- C2: after `AddServer a` the caller's `SortedKeys` has the length it had
before, although `ServerMap` now maps `Hash a` to `a`.  On the ring that
`NewConsistentHashRing` builds from no address `SortedKeys` stays empty, and
`GetResponsibleServer (Hash a)` panics on `SortedKeys[0]` instead of returning
`a`.  This holds whatever the spare capacity of the slice. -/
theorem AddServer_caller_keys_not_extended (sha256 : List Nat → List Nat) (spare : Nat)
    (c : ConsistentHashRing) (a : String) :
    (AddServer sha256 spare c a).SortedKeys.length = c.SortedKeys.length ∧
    (AddServer sha256 spare c a).ServerMap.lookup (Hash sha256 a) = some a ∧
    (AddServer sha256 spare (NewConsistentHashRing sha256 []) a).SortedKeys = [] ∧
    (GetResponsibleServer (AddServer sha256 spare (NewConsistentHashRing sha256 []) a)
        (Hash sha256 a)).2 = .error (.indexOutOfRange 0 0) := by
  have hkeys : (AddServer sha256 spare (NewConsistentHashRing sha256 []) a).SortedKeys = [] := by
    simp [AddServer, NewConsistentHashRing, sortStrings]
  refine ⟨?_, ?_, hkeys, ?_⟩
  · by_cases hs : spare = 0
    · simp [AddServer, hs]
    · have hlen : (sortStrings (c.SortedKeys ++ [Hash sha256 a])).length
          = c.SortedKeys.length + 1 := by
        simp [sortStrings, List.length_insertionSort]
      simp [AddServer, hs, List.length_take, hlen]
  · simp [AddServer, GoMap.lookup_store_self]
  · rw [GetResponsibleServer_eq, hkeys]
    rfl

/-- C3: on a ring with no members `GetResponsibleServer` reports no error
condition: whatever the block hash, it fails on the out-of-range index
`SortedKeys[0]`.  So it does on the ring that `NewConsistentHashRing` builds
from no address. -/
theorem GetResponsibleServer_empty_ring_index_panic (sha256 : List Nat → List Nat)
    (ServerMap : GoMap String) (k : String) :
    (GetResponsibleServer { ServerMap := ServerMap, SortedKeys := [] } k).2
      = .error (.indexOutOfRange 0 0) ∧
    (GetResponsibleServer (NewConsistentHashRing sha256 []) k).2
      = .error (.indexOutOfRange 0 0) := by
  constructor <;> rfl

/-- When the ring is built anew by `NewConsistentHashRing`: for a non-empty
list `S` of addresses with pairwise distinct hashes, an address `a` whose hash
differs from all of theirs, and a list `l` holding exactly `a` and the members
of `S`, `GetResponsibleServer k` on the ring of `l` returns `a` or what it
returns on the ring of `S`. -/
theorem rebuilt_ring_moves_keys_to_new_member_only (sha256 : List Nat → List Nat)
    (S : List String) (a : String) (l : List String) (hne : S ≠ [])
    (hdistinct : (S.map (Hash sha256)).Nodup)
    (hnew : ∀ s ∈ S, Hash sha256 a ≠ Hash sha256 s) (hl : l.Perm (a :: S)) (k : String) :
    (GetResponsibleServer (NewConsistentHashRing sha256 l) k).2 = .ok a ∨
    (GetResponsibleServer (NewConsistentHashRing sha256 l) k).2
      = (GetResponsibleServer (NewConsistentHashRing sha256 S) k).2 := by
  have hmem : ∀ x, x ∈ l ↔ x = a ∨ x ∈ S := fun x => by
    rw [hl.mem_iff, List.mem_cons]
  have hinjS : ∀ x ∈ S, ∀ y ∈ S, Hash sha256 x = Hash sha256 y → x = y :=
    fun x hx y hy h => List.inj_on_of_nodup_map hdistinct hx hy h
  have hinjL : ∀ x ∈ l, ∀ y ∈ l, Hash sha256 x = Hash sha256 y → x = y := by
    intro x hx y hy h
    rcases (hmem x).mp hx with rfl | hxS
    · rcases (hmem y).mp hy with rfl | hyS
      · rfl
      · exact absurd h (hnew y hyS)
    · rcases (hmem y).mp hy with rfl | hyS
      · exact absurd h.symm (hnew x hxS)
      · exact hinjS x hxS y hyS h
  have hlne : l ≠ [] := by
    intro h
    have : a ∈ l := (hmem a).mpr (Or.inl rfl)
    rw [h] at this
    simp at this
  obtain ⟨x, hx, hresL, hownL⟩ := resolve_owner sha256 l hlne hinjL k
  obtain ⟨y, hy, hresS, hownS⟩ := resolve_owner sha256 S hne hinjS k
  rcases (hmem x).mp hx with rfl | hxS
  · exact Or.inl hresL
  · right
    have hsub : ∀ h ∈ S.map (Hash sha256), h ∈ l.map (Hash sha256) := by
      intro h hh
      obtain ⟨s, hs, rfl⟩ := List.mem_map.mp hh
      exact List.mem_map_of_mem _ ((hmem s).mpr (Or.inr hs))
    have hownS' : Owns (S.map (Hash sha256)) k (Hash sha256 x) :=
      Owns.mono hsub (List.mem_map_of_mem _ hxS) hownL
    have hxy : x = y := hinjS x hxS y hy (Owns.unique hownS' hownS)
    rw [hresL, hresS, hxy]

/-- C6: on the ring of `s1`, `s2`, `s3`, with the SHA-256 digests of these
addresses, the block hash `Hash s1` resolves to `s1`.  After `AddServer s4` on
that ring, whose slice of three keys has spare capacity, it resolves to `s3`:
neither the inserted member nor the former owner.  The copy sorted by
`AddServer` pushed the largest key, that of `s1`, out of the caller's slice. -/
theorem AddServer_moves_key_to_third_member (spare : Nat) :
    (GetResponsibleServer (NewConsistentHashRing sha256Sample ["s1", "s2", "s3"])
        (Hash sha256Sample "s1")).2 = .ok "s1" ∧
    (GetResponsibleServer
        (AddServer sha256Sample (spare + 1)
          (NewConsistentHashRing sha256Sample ["s1", "s2", "s3"]) "s4")
        (Hash sha256Sample "s1")).2 = .ok "s3" ∧
    "s3" ≠ "s4" ∧ "s3" ≠ "s1" := by
  have h34 := Hash_sample_s3_lt_s4
  have h42 := Hash_sample_s4_lt_s2
  have h21 := Hash_sample_s2_lt_s1
  have h32 := lt_trans h34 h42
  have h31 := lt_trans h32 h21
  have h41 := lt_trans h42 h21
  refine ⟨?_, ?_, by decide, by decide⟩
  · simp only [NewConsistentHashRing, List.foldl, NewConsistentHashRing.step, sortStrings]
    generalize Hash sha256Sample "s1" = k1 at *
    generalize Hash sha256Sample "s2" = k2 at *
    generalize Hash sha256Sample "s3" = k3 at *
    simp [List.insertionSort, List.orderedInsert, GetResponsibleServer,
      GetResponsibleServer.scan, GoMap.index, GoMap.store, GoMap.lookup, GoMap.lookupIn,
      GoMap.empty, data_le_of_le h21.le, data_le_of_le h32.le, data_le_of_le h31.le,
      data_not_le_of_lt h21, data_not_le_of_lt h32, data_not_le_of_lt h31,
      h21.ne, h32.ne, h31.ne, h21.ne', h32.ne', h31.ne']
  · simp only [NewConsistentHashRing, List.foldl, NewConsistentHashRing.step, sortStrings,
      AddServer]
    generalize Hash sha256Sample "s1" = k1 at *
    generalize Hash sha256Sample "s2" = k2 at *
    generalize Hash sha256Sample "s3" = k3 at *
    generalize Hash sha256Sample "s4" = k4 at *
    simp [List.insertionSort, List.orderedInsert, GetResponsibleServer,
      GetResponsibleServer.scan, GoMap.index, GoMap.store, GoMap.lookup, GoMap.lookupIn,
      GoMap.empty, data_le_of_le h21.le, data_le_of_le h32.le, data_le_of_le h31.le,
      data_le_of_le h34.le, data_le_of_le h42.le, data_le_of_le h41.le,
      data_not_le_of_lt h21, data_not_le_of_lt h32, data_not_le_of_lt h31,
      data_not_le_of_lt h34, data_not_le_of_lt h42, data_not_le_of_lt h41,
      h21.ne, h32.ne, h31.ne, h21.ne', h32.ne', h31.ne', h34.ne, h34.ne', h42.ne, h42.ne',
      h41.ne, h41.ne']

/-- C10: for two address lists with the same members, the first non-empty,
`GetResponsibleServer k` gives the same result on the rings built from them
and leaves each ring as it was.  The digest is a parameter here; `hinj` says of
it what is known of SHA-256 on every input: no two distinct members share a
hash. -/
theorem resolution_function_of_membership (sha256 : List Nat → List Nat)
    (S1 S2 : List String) (hne : S1 ≠ []) (hsame : ∀ x, x ∈ S1 ↔ x ∈ S2)
    (hinj : ∀ x ∈ S1, ∀ y ∈ S1, Hash sha256 x = Hash sha256 y → x = y) (k : String) :
    (GetResponsibleServer (NewConsistentHashRing sha256 S1) k).2
      = (GetResponsibleServer (NewConsistentHashRing sha256 S2) k).2 ∧
    (GetResponsibleServer (NewConsistentHashRing sha256 S1) k).1
      = NewConsistentHashRing sha256 S1 ∧
    (GetResponsibleServer (NewConsistentHashRing sha256 S2) k).1
      = NewConsistentHashRing sha256 S2 := by
  have hinj2 : ∀ x ∈ S2, ∀ y ∈ S2, Hash sha256 x = Hash sha256 y → x = y :=
    fun x hx y hy h => hinj x ((hsame x).mpr hx) y ((hsame y).mpr hy) h
  have hne2 : S2 ≠ [] := by
    cases S1 with
    | nil => exact absurd rfl hne
    | cons a t =>
      intro h
      have : a ∈ S2 := (hsame a).mp (List.mem_cons_self _ _)
      rw [h] at this
      simp at this
  obtain ⟨x, hx, hres1, hown1⟩ := resolve_owner sha256 S1 hne hinj k
  obtain ⟨y, hy, hres2, hown2⟩ := resolve_owner sha256 S2 hne2 hinj2 k
  have hsub : ∀ h ∈ S1.map (Hash sha256), h ∈ S2.map (Hash sha256) := by
    intro h hh
    obtain ⟨s, hs, rfl⟩ := List.mem_map.mp hh
    exact List.mem_map_of_mem _ ((hsame s).mp hs)
  have hown2' : Owns (S1.map (Hash sha256)) k (Hash sha256 y) :=
    Owns.mono hsub (List.mem_map_of_mem _ ((hsame y).mpr hy)) hown2
  have hxy : x = y := hinj x hx y ((hsame y).mpr hy) (Owns.unique hown1 hown2')
  refine ⟨by rw [hres1, hres2, hxy], ?_, ?_⟩ <;> rw [GetResponsibleServer_eq]

theorem resolution_function_of_membership_witness :
    ["s1", "s2"] ≠ [] ∧ (∀ x, x ∈ ["s1", "s2"] ↔ x ∈ ["s2", "s1", "s2"]) ∧
    (∀ x ∈ ["s1", "s2"], ∀ y ∈ ["s1", "s2"],
      Hash sha256Sample x = Hash sha256Sample y → x = y) ∧
    ((GetResponsibleServer (NewConsistentHashRing sha256Sample ["s1", "s2"]) "7332").2
      = (GetResponsibleServer (NewConsistentHashRing sha256Sample ["s2", "s1", "s2"]) "7332").2 ∧
    (GetResponsibleServer (NewConsistentHashRing sha256Sample ["s1", "s2"]) "7332").1
      = NewConsistentHashRing sha256Sample ["s1", "s2"] ∧
    (GetResponsibleServer (NewConsistentHashRing sha256Sample ["s2", "s1", "s2"]) "7332").1
      = NewConsistentHashRing sha256Sample ["s2", "s1", "s2"]) :=
  ⟨by decide, by intro x; simp; tauto, by decide,
    resolution_function_of_membership sha256Sample ["s1", "s2"] ["s2", "s1", "s2"] (by decide)
      (by intro x; simp; tauto) (by decide) "7332"⟩

/-! ## The block store -/

theorem missing_foldl_eq_filter (bs : BlockStore) :
    ∀ (hashes acc : List String),
      hashes.foldl (MissingBlocks.step bs) acc
        = acc ++ hashes.filter (fun h => !bs.BlockMap.has h)
  | [], acc => by simp
  | h :: rest, acc => by
    rw [List.foldl, missing_foldl_eq_filter bs rest]
    cases hh : bs.BlockMap.has h <;> simp [MissingBlocks.step, hh, List.filter]

theorem has_PutBlock_self (sha256 : List Nat → List Nat) (bs : BlockStore) (b : Block) :
    (PutBlock sha256 bs b).1.BlockMap.has (GetBlockHashString sha256 b.BlockData) = true := by
  simp [PutBlock, GoMap.has, GoMap.lookup_store_self]

theorem has_PutBlock_of_has (sha256 : List Nat → List Nat) (bs : BlockStore) (b : Block)
    (h : String) (hh : bs.BlockMap.has h = true) :
    (PutBlock sha256 bs b).1.BlockMap.has h = true := by
  by_cases e : h = GetBlockHashString sha256 b.BlockData
  · rw [e]; exact has_PutBlock_self sha256 bs b
  · simpa [PutBlock, GoMap.has, GoMap.lookup_store_ne _ _ _ _ e] using hh

theorem has_putBlocks_of_has (sha256 : List Nat → List Nat) (h : String) :
    ∀ (blocks : List Block) (bs : BlockStore), bs.BlockMap.has h = true →
      (putBlocks sha256 bs blocks).BlockMap.has h = true
  | [], _, hh => hh
  | b :: rest, bs, hh => by
    simp only [putBlocks, List.foldl]
    exact has_putBlocks_of_has sha256 h rest _ (has_PutBlock_of_has sha256 bs b h hh)

theorem has_putBlocks_of_mem (sha256 : List Nat → List Nat) :
    ∀ (blocks : List Block) (bs : BlockStore) (b : Block), b ∈ blocks →
      (putBlocks sha256 bs blocks).BlockMap.has (GetBlockHashString sha256 b.BlockData) = true
  | [], _, _, hb => by simp at hb
  | c :: rest, bs, b, hb => by
    simp only [putBlocks, List.foldl]
    rcases List.mem_cons.mp hb with rfl | hb
    · exact has_putBlocks_of_has sha256 _ rest _ (has_PutBlock_self sha256 bs b)
    · exact has_putBlocks_of_mem sha256 rest _ b hb

/-- C4: `PutBlock b` answers `Flag = true`, and `GetBlock` of the hash of
`b.BlockData` on the store it leaves succeeds with a block that has the
`BlockData` and the `BlockSize` of `b`. -/
theorem PutBlock_then_GetBlock (sha256 : List Nat → List Nat) (bs : BlockStore) (b : Block) :
    (PutBlock sha256 bs b).2.Flag = true ∧
    (GetBlock (PutBlock sha256 bs b).1 (GetBlockHashString sha256 b.BlockData)).2
      = .ok { BlockData := b.BlockData, BlockSize := b.BlockSize } := by
  refine ⟨rfl, ?_⟩
  simp [GetBlock, PutBlock, GoMap.lookup_store_self]

/-- C5: `MissingBlocks H` returns the elements of `H` that are not keys of
`BlockMap`, in the order of `H`, and leaves the store as it was; once a block
has been put for every hash of `H`, `MissingBlocks H` returns the empty
list. -/
theorem MissingBlocks_exact (sha256 : List Nat → List Nat) (bs : BlockStore)
    (H : List String) :
    (MissingBlocks bs H).2 = H.filter (fun h => !bs.BlockMap.has h) ∧
    (MissingBlocks bs H).1 = bs ∧
    (∀ blocks : List Block,
      (∀ h ∈ H, ∃ b ∈ blocks, GetBlockHashString sha256 b.BlockData = h) →
      (MissingBlocks (putBlocks sha256 bs blocks) H).2 = []) := by
  refine ⟨?_, rfl, ?_⟩
  · simp [MissingBlocks, missing_foldl_eq_filter]
  · intro blocks hcover
    simp only [MissingBlocks, missing_foldl_eq_filter, List.nil_append]
    rw [List.filter_eq_nil_iff]
    intro h hh
    obtain ⟨b, hb, rfl⟩ := hcover h hh
    simp [has_putBlocks_of_mem sha256 blocks bs b hb]

theorem MissingBlocks_exact_witness :
    (∀ h ∈ ["01", "02"], ∃ b ∈ [(⟨[1], 1⟩ : Block), ⟨[2], 1⟩],
      GetBlockHashString id b.BlockData = h) ∧
    (MissingBlocks (putBlocks id NewBlockStore [⟨[1], 1⟩, ⟨[2], 1⟩]) ["01", "02"]).2 = [] :=
  ⟨by decide,
    (MissingBlocks_exact id NewBlockStore ["01", "02"]).2.2 [⟨[1], 1⟩, ⟨[2], 1⟩] (by decide)⟩

/-- C7: `GetBlock h` fails exactly when `h` is not a key of `BlockMap`, with
the not-found message; otherwise it returns the data and the size stored under
`h`; in both cases the store is left as it was. -/
theorem GetBlock_found_iff (bs : BlockStore) (h : String) :
    ((∃ msg, (GetBlock bs h).2 = .error msg) ↔ bs.BlockMap.lookup h = none) ∧
    (bs.BlockMap.lookup h = none →
      (GetBlock bs h).2 = .error ("Block with hash " ++ h ++ " not found")) ∧
    (∀ stored, bs.BlockMap.lookup h = some stored →
      (GetBlock bs h).2
        = .ok { BlockData := stored.BlockData, BlockSize := stored.BlockSize }) ∧
    (GetBlock bs h).1 = bs := by
  unfold GetBlock
  cases hl : bs.BlockMap.lookup h with
  | none => simp
  | some stored => simp

/-- C9 (as stated, refuted): two blocks with the same data and different
sizes; putting the second after the first changes the size stored under
their hash. -/
theorem PutBlock_same_data_other_size :
    (⟨[1], 1⟩ : Block).BlockData = (⟨[1], 2⟩ : Block).BlockData ∧
    (GetBlock (PutBlock id (PutBlock id NewBlockStore ⟨[1], 1⟩).1 ⟨[1], 2⟩).1 "01").2
      = .ok ⟨[1], 2⟩ ∧
    (GetBlock (PutBlock id NewBlockStore ⟨[1], 1⟩).1 "01").2 = .ok ⟨[1], 1⟩ ∧
    (PutBlock id (PutBlock id NewBlockStore ⟨[1], 1⟩).1 ⟨[1], 2⟩).1
      ≠ (PutBlock id NewBlockStore ⟨[1], 1⟩).1 := by
  refine ⟨rfl, rfl, rfl, by decide⟩

/-- C9 (amended): `PutBlock` stores the block under the hash of its data, and
for two blocks with the same data and the same size, putting the second after
the first leaves the store exactly as the first put left it. -/
theorem PutBlock_idempotent (sha256 : List Nat → List Nat) (bs : BlockStore) (b1 b2 : Block)
    (hdata : b1.BlockData = b2.BlockData) (hsize : b1.BlockSize = b2.BlockSize) :
    (PutBlock sha256 bs b1).1.BlockMap.lookup (GetBlockHashString sha256 b1.BlockData)
      = some b1 ∧
    (PutBlock sha256 (PutBlock sha256 bs b1).1 b2).1 = (PutBlock sha256 bs b1).1 := by
  have hb : b1 = b2 := by
    cases b1; cases b2; simp at hdata hsize; simp [hdata, hsize]
  subst hb
  refine ⟨by simp [PutBlock, GoMap.lookup_store_self], ?_⟩
  simp [PutBlock, GoMap.store, List.filter_filter]

theorem PutBlock_idempotent_witness :
    (⟨[1, 2], 2⟩ : Block).BlockData = (⟨[1, 2], 2⟩ : Block).BlockData ∧
    (⟨[1, 2], 2⟩ : Block).BlockSize = (⟨[1, 2], 2⟩ : Block).BlockSize ∧
    ((PutBlock id NewBlockStore ⟨[1, 2], 2⟩).1.BlockMap.lookup
        (GetBlockHashString id (⟨[1, 2], 2⟩ : Block).BlockData) = some ⟨[1, 2], 2⟩ ∧
    (PutBlock id (PutBlock id NewBlockStore ⟨[1, 2], 2⟩).1 ⟨[1, 2], 2⟩).1
      = (PutBlock id NewBlockStore ⟨[1, 2], 2⟩).1) :=
  ⟨rfl, rfl, PutBlock_idempotent id NewBlockStore ⟨[1, 2], 2⟩ ⟨[1, 2], 2⟩ rfl rfl⟩

/-! ## The local index file -/

theorem insertHashes_append (fileName : String) (version : Int) :
    ∀ (hashes : List String) (i : Nat) (table : List IndexRow),
      WriteMetaFile.insertHashes fileName version i hashes table
        = table ++ WriteMetaFile.insertHashes fileName version i hashes []
  | [], _, table => by simp [WriteMetaFile.insertHashes]
  | h :: rest, i, table => by
    rw [WriteMetaFile.insertHashes, insertHashes_append fileName version rest (i + 1)]
    conv_rhs =>
      rw [WriteMetaFile.insertHashes, insertHashes_append fileName version rest (i + 1)]
    simp

theorem insertHashes_rows (fileName : String) (version : Int) :
    ∀ (hashes : List String) (i : Nat),
      (∀ r ∈ WriteMetaFile.insertHashes fileName version i hashes [],
        r.fileName = fileName ∧ r.version = version) ∧
      (WriteMetaFile.insertHashes fileName version i hashes []).map (·.hashValue) = hashes
  | [], _ => by simp [WriteMetaFile.insertHashes]
  | h :: rest, i => by
    obtain ⟨ih1, ih2⟩ := insertHashes_rows fileName version rest (i + 1)
    rw [WriteMetaFile.insertHashes, insertHashes_append]
    refine ⟨?_, ?_⟩
    · intro r hr
      rcases List.mem_append.mp hr with hr | hr
      · simp at hr
        subst hr
        exact ⟨rfl, rfl⟩
      · exact ih1 r hr
    · simp [ih2]

/-- The rows `WriteMetaFile` inserts for one file. -/
theorem insertFile_append (table : List IndexRow) (filemeta : FileMetaData) :
    WriteMetaFile.insertFile table filemeta
      = table ++ WriteMetaFile.insertFile [] filemeta := by
  simp only [WriteMetaFile.insertFile]
  exact insertHashes_append _ _ _ _ _

theorem foldl_insertFile (entries : List (String × FileMetaData)) :
    ∀ table : List IndexRow,
      entries.foldl (fun t e => WriteMetaFile.insertFile t e.2) table
        = table ++ entries.flatMap (fun e => WriteMetaFile.insertFile [] e.2) := by
  induction entries with
  | nil => intro table; simp
  | cons e rest ih =>
    intro table
    rw [List.foldl, ih, insertFile_append]
    simp

theorem select_insertFile_same (filemeta : FileMetaData) :
    selectTuplesByFileName (WriteMetaFile.insertFile [] filemeta) filemeta.Filename
      = WriteMetaFile.insertFile [] filemeta := by
  simp only [selectTuplesByFileName, WriteMetaFile.insertFile]
  rw [List.filter_eq_self]
  intro r hr
  simp [(insertHashes_rows _ _ _ _).1 r hr]

theorem select_insertFile_other (filemeta : FileMetaData) (fileName : String)
    (h : filemeta.Filename ≠ fileName) :
    selectTuplesByFileName (WriteMetaFile.insertFile [] filemeta) fileName = [] := by
  simp only [selectTuplesByFileName, WriteMetaFile.insertFile]
  rw [List.filter_eq_nil_iff]
  intro r hr
  simp [(insertHashes_rows _ _ _ _).1 r hr, h]

theorem select_append (t1 t2 : List IndexRow) (fileName : String) :
    selectTuplesByFileName (t1 ++ t2) fileName
      = selectTuplesByFileName t1 fileName ++ selectTuplesByFileName t2 fileName := by
  simp [selectTuplesByFileName]

theorem select_absent (fileName : String) :
    ∀ entries : List (String × FileMetaData),
      (∀ e ∈ entries, e.2.Filename ≠ fileName) →
      selectTuplesByFileName (entries.flatMap (fun e => WriteMetaFile.insertFile [] e.2))
        fileName = []
  | [], _ => by simp [selectTuplesByFileName]
  | e :: rest, h => by
    rw [List.flatMap_cons, select_append,
      select_insertFile_other e.2 fileName (h e (List.mem_cons_self _ _)),
      select_absent fileName rest (fun e' he' => h e' (List.mem_cons_of_mem _ he'))]
    rfl

theorem select_present (fileName : String) (filemeta : FileMetaData) :
    ∀ entries : List (String × FileMetaData),
      (entries.map Prod.fst).Nodup → (∀ e ∈ entries, e.1 = e.2.Filename) →
      GoMap.lookupIn entries fileName = some filemeta →
      selectTuplesByFileName (entries.flatMap (fun e => WriteMetaFile.insertFile [] e.2))
        fileName = WriteMetaFile.insertFile [] filemeta
  | [], _, _, h => by simp [GoMap.lookupIn] at h
  | (k, v) :: rest, hnd, hname, h => by
    have hnd' := List.nodup_cons.mp hnd
    have hkv : k = v.Filename := hname (k, v) (List.mem_cons_self _ _)
    have hrest : ∀ e ∈ rest, e.1 = e.2.Filename :=
      fun e he => hname e (List.mem_cons_of_mem _ he)
    rw [List.flatMap_cons, select_append]
    by_cases hk : k = fileName
    · simp only [GoMap.lookupIn, hk, if_true, Option.some.injEq] at h
      subst h
      have hname' : v.Filename = fileName := hkv ▸ hk
      rw [← hname', select_insertFile_same, select_absent]
      · simp
      · intro e he heq
        have hek : e.1 = k := by rw [hrest e he, heq, hkv]
        exact hnd'.1 (hek ▸ List.mem_map.mpr ⟨e, he, rfl⟩)
    · simp only [GoMap.lookupIn, hk, if_false] at h
      rw [select_insertFile_other v fileName (hkv ▸ hk),
        select_present fileName filemeta rest hnd'.2 hrest h]
      rfl

theorem lookupIn_none_iff {V : Type} (key : String) :
    ∀ entries : List (String × V),
      GoMap.lookupIn entries key = none ↔ ∀ e ∈ entries, e.1 ≠ key
  | [] => by simp [GoMap.lookupIn]
  | (k, v) :: rest => by
    by_cases hk : k = key
    · simp [GoMap.lookupIn, hk]
    · simp [GoMap.lookupIn, hk, lookupIn_none_iff key rest]

theorem lookupIn_mem {V : Type} (key : String) (v : V) :
    ∀ entries : List (String × V), GoMap.lookupIn entries key = some v → (key, v) ∈ entries
  | [], h => by simp [GoMap.lookupIn] at h
  | (k, w) :: rest, h => by
    by_cases hk : k = key
    · simp [GoMap.lookupIn, hk] at h
      simp [hk, h]
    · simp only [GoMap.lookupIn, hk, if_false] at h
      exact List.mem_cons_of_mem _ (lookupIn_mem key v rest h)

theorem scanRows_foldl (version : Int) :
    ∀ (rows : List IndexRow) (acc : List String × Int),
      (∀ r ∈ rows, r.version = version) →
      rows.foldl (fun acc r => (acc.1 ++ [r.hashValue], r.version)) acc
        = (acc.1 ++ rows.map (·.hashValue), if rows = [] then acc.2 else version)
  | [], acc, _ => by simp
  | r :: rest, acc, h => by
    rw [List.foldl, scanRows_foldl version rest _ (fun r' hr' => h r' (List.mem_cons_of_mem _ hr'))]
    have hr : r.version = version := h r (List.mem_cons_self _ _)
    by_cases hrest : rest = []
    · simp [hrest, hr]
    · simp [hrest]

theorem scanRows_insertFile (filemeta : FileMetaData) (h : filemeta.BlockHashList ≠ []) :
    LoadMetaFromMetaFile.scanRows (WriteMetaFile.insertFile [] filemeta)
      = (filemeta.BlockHashList, filemeta.Version) := by
  have hrows := insertHashes_rows filemeta.Filename filemeta.Version filemeta.BlockHashList 0
  have hne : WriteMetaFile.insertHashes filemeta.Filename filemeta.Version 0
      filemeta.BlockHashList [] ≠ [] := by
    intro hnil
    have := hrows.2
    rw [hnil] at this
    exact h this.symm
  simp only [LoadMetaFromMetaFile.scanRows, WriteMetaFile.insertFile]
  rw [scanRows_foldl filemeta.Version _ _ (fun r hr => (hrows.1 r hr).2)]
  simp only [hne, if_false, List.nil_append, hrows.2]

theorem mem_selectDistinct (table : List IndexRow) (fileName : String) :
    fileName ∈ selectDistinctFileName table ↔ selectTuplesByFileName table fileName ≠ [] := by
  simp only [selectDistinctFileName, selectTuplesByFileName, List.mem_dedup, List.mem_map,
    ne_eq, List.filter_eq_nil_iff, not_forall]
  constructor
  · rintro ⟨r, hr, hname⟩
    exact ⟨r, hr, by simp [hname]⟩
  · rintro ⟨r, hr, hname⟩
    exact ⟨r, hr, by simpa using hname⟩

theorem lookup_foldl_loadFile (table : List IndexRow) (fileName : String) :
    ∀ (names : List String) (acc : GoMap FileMetaData),
      (names.foldl (LoadMetaFromMetaFile.loadFile table) acc).lookup fileName
        = if fileName ∈ names then
            some { Filename := fileName
                   Version := (LoadMetaFromMetaFile.scanRows
                     (selectTuplesByFileName table fileName)).2
                   BlockHashList := (LoadMetaFromMetaFile.scanRows
                     (selectTuplesByFileName table fileName)).1 }
          else acc.lookup fileName
  | [], acc => by simp
  | n :: rest, acc => by
    rw [List.foldl, lookup_foldl_loadFile table fileName rest]
    by_cases hr : fileName ∈ rest
    · simp [hr]
    · by_cases hn : fileName = n
      · subst hn
        simp [hr, LoadMetaFromMetaFile.loadFile, GoMap.lookup_store_self]
      · simp [hr, hn, LoadMetaFromMetaFile.loadFile, GoMap.lookup_store_ne _ _ _ _ hn]

theorem Load_after_Write (names : FileNames) (fileMetas : GoMap FileMetaData)
    (baseDir : String) (disk : Disk)
    (hopen : names.sqliteFile (ConcatPath baseDir DEFAULT_META_FILENAME)
      = names.osFile (ConcatPath baseDir DEFAULT_META_FILENAME))
    (habs : names.osFile (names.abs (ConcatPath baseDir DEFAULT_META_FILENAME))
      = names.osFile (ConcatPath baseDir DEFAULT_META_FILENAME))
    (hopenAbs : names.sqliteFile (names.abs (ConcatPath baseDir DEFAULT_META_FILENAME))
      = names.osFile (ConcatPath baseDir DEFAULT_META_FILENAME)) :
    LoadMetaFromMetaFile names baseDir (WriteMetaFile names fileMetas baseDir disk)
      = (selectDistinctFileName
            (fileMetas.entries.flatMap (fun e => WriteMetaFile.insertFile [] e.2))).foldl
          (LoadMetaFromMetaFile.loadFile
            (fileMetas.entries.flatMap (fun e => WriteMetaFile.insertFile [] e.2)))
          GoMap.empty := by
  have hgone : ((if disk.has (names.osFile (ConcatPath baseDir DEFAULT_META_FILENAME)) = true
        then disk.remove (names.osFile (ConcatPath baseDir DEFAULT_META_FILENAME))
        else disk).lookup (names.osFile (ConcatPath baseDir DEFAULT_META_FILENAME))) = none := by
    by_cases h : disk.has (names.osFile (ConcatPath baseDir DEFAULT_META_FILENAME)) = true
    · rw [if_pos h]
      exact GoMap.lookup_remove_self _ _
    · rw [if_neg h]
      simpa [GoMap.has] using h
  have hhas : ∀ (d : Disk) (k : String) (t : List IndexRow), (d.store k t).has k = true :=
    fun d k t => by simp [GoMap.has, GoMap.lookup_store_self]
  simp only [LoadMetaFromMetaFile, WriteMetaFile, habs, hopenAbs, hopen, hgone, hhas,
    GoMap.lookup_store_self, if_true, Option.getD_some, Option.getD_none,
    foldl_insertFile, List.nil_append]

/-- With the rule of go-sqlite3 for data source names, a directory whose
path holds a `?` does not get its index back: the table goes to the file named
by what stands before the `?`, and no `index.db` is found in the directory. -/
theorem Load_after_Write_question_mark :
    (WriteMetaFile plainNames ⟨[("file1", ⟨"file1", 1, ["hash1", "hash2"]⟩)]⟩ "/q?a"
        GoMap.empty).keys = ["/q"] ∧
    LoadMetaFromMetaFile plainNames "/q?a"
        (WriteMetaFile plainNames ⟨[("file1", ⟨"file1", 1, ["hash1", "hash2"]⟩)]⟩ "/q?a"
          GoMap.empty)
      = GoMap.empty := by
  decide

/-- C8 (as stated, refuted): a file whose `BlockHashList` is empty gets no row
in `index.db`, and is missing from the map that is loaded back. -/
theorem meta_roundtrip_drops_file_without_hashes :
    (LoadMetaFromMetaFile plainNames "/dir"
        (WriteMetaFile plainNames ⟨[("a.txt", ⟨"a.txt", 1, []⟩)]⟩ "/dir"
          GoMap.empty)).lookup "a.txt"
      = none ∧
    (⟨[("a.txt", ⟨"a.txt", 1, []⟩)]⟩ : GoMap FileMetaData).lookup "a.txt"
      = some ⟨"a.txt", 1, []⟩ := by
  decide

/-- C8 (amended): let the path of `index.db` in the directory reach one and
the same file through `os.Stat`, through `filepath.Abs` and as data source
name of go-sqlite3.  Then for a map of file metadata in which each key is the
`Filename` of its entry and every entry has at least one block hash,
`LoadMetaFromMetaFile` after `WriteMetaFile` on that directory returns a map
with the same entry under every file name: same names, same `Version`, same
`BlockHashList` in the same order. -/
theorem meta_roundtrip (names : FileNames) (fileMetas : GoMap FileMetaData)
    (baseDir : String) (disk : Disk)
    (hopen : names.sqliteFile (ConcatPath baseDir DEFAULT_META_FILENAME)
      = names.osFile (ConcatPath baseDir DEFAULT_META_FILENAME))
    (habs : names.osFile (names.abs (ConcatPath baseDir DEFAULT_META_FILENAME))
      = names.osFile (ConcatPath baseDir DEFAULT_META_FILENAME))
    (hopenAbs : names.sqliteFile (names.abs (ConcatPath baseDir DEFAULT_META_FILENAME))
      = names.osFile (ConcatPath baseDir DEFAULT_META_FILENAME))
    (hkeys : fileMetas.keys.Nodup)
    (hname : ∀ e ∈ fileMetas.entries, e.1 = e.2.Filename)
    (hhashes : ∀ e ∈ fileMetas.entries, e.2.BlockHashList ≠ []) (fileName : String) :
    (LoadMetaFromMetaFile names baseDir
        (WriteMetaFile names fileMetas baseDir disk)).lookup fileName
      = fileMetas.lookup fileName := by
  rw [Load_after_Write names fileMetas baseDir disk hopen habs hopenAbs, lookup_foldl_loadFile]
  cases hl : fileMetas.lookup fileName with
  | none =>
    have habsent : ∀ e ∈ fileMetas.entries, e.2.Filename ≠ fileName := by
      intro e he
      rw [← hname e he]
      exact (lookupIn_none_iff fileName fileMetas.entries).mp hl e he
    have hnot : fileName ∉ selectDistinctFileName
        (fileMetas.entries.flatMap (fun e => WriteMetaFile.insertFile [] e.2)) := by
      rw [mem_selectDistinct, select_absent fileName fileMetas.entries habsent]
      simp
    rw [if_neg hnot]
    rfl
  | some filemeta =>
    have hsel := select_present fileName filemeta fileMetas.entries hkeys hname hl
    have hmem : (fileName, filemeta) ∈ fileMetas.entries := lookupIn_mem fileName filemeta _ hl
    have hfn : fileName = filemeta.Filename := hname _ hmem
    have hne : filemeta.BlockHashList ≠ [] := hhashes _ hmem
    have hrows : WriteMetaFile.insertFile [] filemeta ≠ [] := by
      intro hnil
      have := (insertHashes_rows filemeta.Filename filemeta.Version filemeta.BlockHashList 0).2
      simp only [WriteMetaFile.insertFile] at hnil
      rw [hnil] at this
      exact hne this.symm
    have hin : fileName ∈ selectDistinctFileName
        (fileMetas.entries.flatMap (fun e => WriteMetaFile.insertFile [] e.2)) := by
      rw [mem_selectDistinct, hsel]
      exact hrows
    rw [if_pos hin, hsel, scanRows_insertFile filemeta hne, hfn]

theorem meta_roundtrip_witness :
    plainNames.sqliteFile (ConcatPath "/srv/sync" DEFAULT_META_FILENAME)
      = plainNames.osFile (ConcatPath "/srv/sync" DEFAULT_META_FILENAME) ∧
    plainNames.osFile (plainNames.abs (ConcatPath "/srv/sync" DEFAULT_META_FILENAME))
      = plainNames.osFile (ConcatPath "/srv/sync" DEFAULT_META_FILENAME) ∧
    plainNames.sqliteFile (plainNames.abs (ConcatPath "/srv/sync" DEFAULT_META_FILENAME))
      = plainNames.osFile (ConcatPath "/srv/sync" DEFAULT_META_FILENAME) ∧
    (⟨[("file1", ⟨"file1", 1, ["hash1", "hash2"]⟩)]⟩ : GoMap FileMetaData).keys.Nodup ∧
    (∀ e ∈ (⟨[("file1", ⟨"file1", 1, ["hash1", "hash2"]⟩)]⟩ : GoMap FileMetaData).entries,
      e.1 = e.2.Filename) ∧
    (∀ e ∈ (⟨[("file1", ⟨"file1", 1, ["hash1", "hash2"]⟩)]⟩ : GoMap FileMetaData).entries,
      e.2.BlockHashList ≠ []) ∧
    (LoadMetaFromMetaFile plainNames "/srv/sync"
        (WriteMetaFile plainNames ⟨[("file1", ⟨"file1", 1, ["hash1", "hash2"]⟩)]⟩ "/srv/sync"
          GoMap.empty)).lookup "file1"
      = (⟨[("file1", ⟨"file1", 1, ["hash1", "hash2"]⟩)]⟩ : GoMap FileMetaData).lookup "file1" :=
  ⟨by decide, by decide, by decide, by decide, by decide, by decide,
    meta_roundtrip plainNames ⟨[("file1", ⟨"file1", 1, ["hash1", "hash2"]⟩)]⟩ "/srv/sync"
      GoMap.empty (by decide) (by decide) (by decide) (by decide) (by decide) (by decide)
      "file1"⟩

end Surfstore
